import Mathlib

/-!
Shallow embedding of the fastcdc-diff core (src/signature.rs, src/diff.rs,
src/apply.rs) over lists of natural numbers standing for byte streams.
Machine integers (u8/u32/u64/usize) are modelled as `Nat`; serialized
big-endian fields are explicit byte lists produced by `beBytes`.
-/

namespace FastcdcDiff

/-- The format version constant (signature.rs: `pub const VERSION: u8 = 0`). -/
def VERSION : Nat := 0

/-- A content-defined chunk (signature.rs `Chunk`): a 32-byte hash, the
byte offset inside the file it was cut from, and its byte length. -/
structure Chunk where
  hash : List Nat
  offset : Nat
  length : Nat
deriving DecidableEq, Repr

/-- A file signature (signature.rs `Signature`): version byte, the CDC
parameters, and the ordered chunk list. -/
structure Signature where
  version : Nat
  min_size : Nat
  avg_size : Nat
  max_size : Nat
  chunks : List Chunk
deriving DecidableEq, Repr

/-- Diff operation kind (diff.rs `Operation`). -/
inductive Operation where
  | copy
  | insert
deriving DecidableEq, Repr

/-- Errors surfaced by `apply` (apply.rs): the version gate, a failed
`read_exact` (unexpected end of stream inside a record), and the
`unimplemented!()` panic on an unknown operation tag. -/
inductive ApplyError where
  | versionMismatch (found want : Nat)
  | unexpectedEof
  | unknownTag (tag : Nat)
deriving DecidableEq, Repr

/-- Big-endian byte encoding of `n` into `w` bytes (`to_be_bytes`). -/
def beBytes : Nat → Nat → List Nat
  | 0, _ => []
  | w + 1, n => beBytes w (n / 256) ++ [n % 256]

/-- Big-endian value of a byte list (`from_be_bytes`). -/
def beVal (bs : List Nat) : Nat :=
  bs.foldl (fun a b => a * 256 + b) 0

/-- The hash index built from `a.chunks` (diff.rs lines 79-82): a
`HashMap<blake3::Hash, &Chunk>` populated with `entry(..).or_insert(..)`,
so the first chunk carrying a given hash wins; the lookup at line 89 is
by hash alone.  `List.find?` returns exactly that first occurrence. -/
def findChunk (chunks : List Chunk) (h : List Nat) : Option Chunk :=
  chunks.find? (fun c => c.hash == h)

/-- The planner loop of `diff_signatures` (diff.rs lines 84-134): walk the
target chunks, keep a current run `(op, offset, length)`, flush it when the
run cannot be extended, and push the final run unconditionally. -/
def diffGo (orig : List Chunk) : List Chunk → Operation → Nat → Nat →
    List (Operation × Nat × Nat) → List (Operation × Nat × Nat)
  | [], op, off, len, acc => acc ++ [(op, off, len)]
  | nc :: rest, op, off, len, acc =>
    match findChunk orig nc.hash, op with
    | some c, Operation.copy =>
      if off + len = c.offset then
        diffGo orig rest Operation.copy off (len + c.length) acc
      else if 0 < len then
        diffGo orig rest Operation.copy c.offset c.length
          (acc ++ [(Operation.copy, off, len)])
      else
        diffGo orig rest Operation.copy c.offset c.length acc
    | some c, Operation.insert =>
      if 0 < len then
        diffGo orig rest Operation.copy c.offset c.length
          (acc ++ [(Operation.insert, off, len)])
      else
        diffGo orig rest Operation.copy off c.length acc
    | none, Operation.insert =>
      if off + len = nc.offset then
        diffGo orig rest Operation.insert off (len + nc.length) acc
      else if 0 < len then
        diffGo orig rest Operation.insert nc.offset nc.length
          (acc ++ [(Operation.insert, off, len)])
      else
        diffGo orig rest Operation.insert nc.offset nc.length acc
    | none, Operation.copy =>
      if 0 < len then
        diffGo orig rest Operation.insert nc.offset nc.length
          (acc ++ [(Operation.copy, off, len)])
      else
        diffGo orig rest Operation.insert off nc.length acc

/-- diff.rs `diff_signatures`: plan the operation list from signatures
`a` (source) and `b` (target). -/
def diff_signatures (a b : Signature) : List (Operation × Nat × Nat) :=
  diffGo a.chunks b.chunks Operation.copy 0 0 []

/-- diff.rs `serialize_copy`: tag byte 0, then offset and size as u64
big-endian. -/
def serialize_copy (offset size : Nat) : List Nat :=
  0 :: (beBytes 8 offset ++ beBytes 8 size)

/-- diff.rs `serialize_insert`: tag byte 1, size as u64 big-endian, then
`size` payload bytes read from the target data at `offset` (seek + take). -/
def serialize_insert (offset size : Nat) (b_data : List Nat) : List Nat :=
  1 :: (beBytes 8 size ++ (b_data.drop offset).take size)

/-- Serialization of one planned operation (the match inside
`write_diff_between`). -/
def opBytesSer (b_data : List Nat) : Operation × Nat × Nat → List Nat
  | (Operation.copy, o, s) => serialize_copy o s
  | (Operation.insert, o, s) => serialize_insert o s b_data

/-- diff.rs `write_diff_between`: the version byte of `a`, then the
serialized operations of `diff_signatures a b`, with Insert payloads read
from `b_data` (the raw target bytes). -/
def write_diff_between (a b : Signature) (b_data : List Nat) : List Nat :=
  a.version :: ((diff_signatures a b).map (opBytesSer b_data)).flatten

/-- The record loop of apply.rs `apply` (lines 41-68).  The first
component is everything written to `dest`, the second the error (if any)
the loop ended with; bytes written before an error stay written.
End of stream at a tag position breaks the loop normally.  A `Copy`
record copies `take(size)` bytes from the source after a seek — fewer
when the source is shorter.  An `Insert` record copies `take(size)`
bytes from the diff stream itself — fewer when the stream ends early,
which is not an error.  A failing `read_exact` on the fixed-width fields
is an error, and an unknown tag hits `unimplemented!()`. -/
def applyLoop (stream src : List Nat) : List Nat × Option ApplyError :=
  match stream with
  | [] => ([], none)
  | tag :: rest =>
    if tag = 0 then
      if 16 ≤ rest.length then
        let offset := beVal (rest.take 8)
        let size := beVal ((rest.drop 8).take 8)
        let r := applyLoop (rest.drop 16) src
        ((src.drop offset).take size ++ r.1, r.2)
      else ([], some ApplyError.unexpectedEof)
    else if tag = 1 then
      if 8 ≤ rest.length then
        let size := beVal (rest.take 8)
        let r := applyLoop ((rest.drop 8).drop size) src
        ((rest.drop 8).take size ++ r.1, r.2)
      else ([], some ApplyError.unexpectedEof)
    else ([], some (ApplyError.unknownTag tag))
termination_by stream.length
decreasing_by
  · simp only [List.length_drop, List.length_cons]; omega
  · simp only [List.length_drop, List.length_cons]; omega

/-- apply.rs `apply` (lines 26-71): read the version byte (an empty
stream fails `read_exact`), gate on `VERSION`, then run the record loop. -/
def apply (diff source : List Nat) : List Nat × Option ApplyError :=
  match diff with
  | [] => ([], some ApplyError.unexpectedEof)
  | v :: rest =>
    if v = VERSION then applyLoop rest source
    else ([], some (ApplyError.versionMismatch v VERSION))

/-- signature.rs `Signature::write` (lines 101-117): version byte, the
three u32 CDC parameters, the chunk count as 8 bytes, then per chunk the
32 hash bytes, the u64 offset and the 8-byte length. -/
def Signature.write (s : Signature) : List Nat :=
  s.version :: (beBytes 4 s.min_size ++ beBytes 4 s.avg_size ++
    beBytes 4 s.max_size ++ beBytes 8 s.chunks.length ++
    (s.chunks.map (fun c => c.hash ++ beBytes 8 c.offset ++ beBytes 8 c.length)).flatten)

/-- The chunk-reading loop of signature.rs `Signature::load` (lines
82-90): read `n` records of 48 bytes each; too few bytes makes
`array_ref!` abort, modelled by `none`. -/
def loadChunks : Nat → List Nat → Option (List Chunk)
  | 0, _ => some []
  | n + 1, bs =>
    if 48 ≤ bs.length then
      match loadChunks n (bs.drop 48) with
      | some rest =>
        some ({ hash := bs.take 32,
                offset := beVal ((bs.drop 32).take 8),
                length := beVal ((bs.drop 40).take 8) } :: rest)
      | none => none
    else none

/-- signature.rs `Signature::load` (lines 74-99): the first byte becomes
the version unconditionally — there is no version check — then the three
u32 parameters, the 8-byte chunk count, and the chunk records.  Too few
bytes makes `array_ref!` abort, modelled by `none`. -/
def Signature.load (bs : List Nat) : Option Signature :=
  match bs with
  | [] => none
  | v :: rest =>
    if 20 ≤ rest.length then
      match loadChunks (beVal ((rest.drop 12).take 8)) (rest.drop 20) with
      | some chunks =>
        some { version := v,
               min_size := beVal (rest.take 4),
               avg_size := beVal ((rest.drop 4).take 4),
               max_size := beVal ((rest.drop 8).take 4),
               chunks := chunks }
      | none => none
    else none

/-- The byte ranges collected by the first pass of apply.rs
`apply_from_http` (lines 88-95): one inclusive range per Insert
operation. -/
def insertRanges : List (Operation × Nat × Nat) → List (Nat × Nat)
  | [] => []
  | (Operation.copy, _, _) :: rest => insertRanges rest
  | (Operation.insert, o, s) :: rest => (o, o + s - 1) :: insertRanges rest

/-- The second pass of apply.rs `apply_from_http` (lines 119-131): walk
the operation list; Copy slices the source, Insert consumes the next
`size` bytes of the scratch data sequentially. -/
def httpRender : List (Operation × Nat × Nat) → List Nat → List Nat → List Nat
  | [], _, _ => []
  | (Operation.copy, o, s) :: rest, src, remote =>
    (src.drop o).take s ++ httpRender rest src remote
  | (Operation.insert, _, s) :: rest, src, remote =>
    remote.take s ++ httpRender rest src (remote.drop s)

/-- apply.rs `apply_from_http` (lines 75-134): fetch one response per
Insert range (`fetch start end` returns the HTTP status and the body),
write every response body — the status is never inspected — into the
scratch data in request order, then render the operation list.  The
function has no failure path for a bad status, so the error component is
always `none`. -/
def apply_from_http (diff : List (Operation × Nat × Nat))
    (fetch : Nat → Nat → Nat × List Nat) (source : List Nat) :
    List Nat × Option ApplyError :=
  (httpRender diff source
    (((insertRanges diff).map (fun r => (fetch r.1 r.2).2)).flatten), none)

/-- The bytes an operation contributes to the reconstructed output:
Copy slices the source file, Insert slices the target file (its payload
is embedded from the target by `serialize_insert`). -/
def opRender (S T : List Nat) : Operation × Nat × Nat → List Nat
  | (Operation.copy, o, s) => (S.drop o).take s
  | (Operation.insert, o, s) => (T.drop o).take s

/-- Concatenated rendering of an operation list. -/
def renderOps (S T : List Nat) (ops : List (Operation × Nat × Nat)) : List Nat :=
  (ops.map (opRender S T)).flatten

/-- The signature invariant from the data model: starting at position
`p`, the chunk list tiles the file `T` gaplessly with positive-length
chunks and ends exactly at the end of `T`. -/
def chunksFrom (T : List Nat) : List Chunk → Nat → Prop
  | [], p => p = T.length
  | c :: rest, p =>
    c.offset = p ∧ 0 < c.length ∧ p + c.length ≤ T.length ∧
      chunksFrom T rest (p + c.length)

/-- Range sanity of one planned operation: a Copy stays inside the
source file, an Insert stays inside the target file. -/
def opOK (S T : List Nat) (o : Operation × Nat × Nat) : Prop :=
  (o.1 = Operation.copy → o.2.1 + o.2.2 ≤ S.length) ∧
  (o.1 = Operation.insert → o.2.1 + o.2.2 ≤ T.length)

end FastcdcDiff

namespace FastcdcDiff

theorem beBytes_length (w n : Nat) : (beBytes w n).length = w := by
  induction w generalizing n with
  | zero => rfl
  | succ w ih => simp [beBytes, ih]

theorem beVal_append_singleton (bs : List Nat) (x : Nat) :
    beVal (bs ++ [x]) = beVal bs * 256 + x := by
  simp [beVal, List.foldl_append]

theorem beVal_beBytes (w n : Nat) : beVal (beBytes w n) = n % 256 ^ w := by
  induction w generalizing n with
  | zero => simp [beBytes, beVal, Nat.mod_one]
  | succ w ih =>
    rw [beBytes, beVal_append_singleton, ih, pow_succ']
    rw [Nat.mod_mul, Nat.mul_comm]
    omega

theorem beVal_beBytes_of_lt {w n : Nat} (h : n < 256 ^ w) :
    beVal (beBytes w n) = n := by
  rw [beVal_beBytes, Nat.mod_eq_of_lt h]

theorem pow256_eight : (256 : Nat) ^ 8 = 2 ^ 64 := by norm_num

theorem take_len_append (a b : List Nat) : (a ++ b).take a.length = a :=
  List.take_left a b

theorem drop_len_append (a b : List Nat) : (a ++ b).drop a.length = b :=
  List.drop_left a b

theorem renderOps_nil (S T : List Nat) : renderOps S T [] = [] := rfl

theorem renderOps_cons (S T : List Nat) (o : Operation × Nat × Nat)
    (ops : List (Operation × Nat × Nat)) :
    renderOps S T (o :: ops) = opRender S T o ++ renderOps S T ops := by
  simp [renderOps]

theorem renderOps_append (S T : List Nat) (xs ys : List (Operation × Nat × Nat)) :
    renderOps S T (xs ++ ys) = renderOps S T xs ++ renderOps S T ys := by
  simp [renderOps]

theorem drop_take_split (l : List Nat) (o a b : Nat) :
    (l.drop o).take (a + b) = (l.drop o).take a ++ (l.drop (o + a)).take b := by
  rw [List.take_add, List.drop_drop]

theorem take_drop_take (l : List Nat) (p q : Nat) :
    l.take p ++ (l.drop p).take q = l.take (p + q) :=
  (List.take_add l p q).symm

theorem chunksFrom_le (T : List Nat) :
    ∀ (bs : List Chunk) (p : Nat), chunksFrom T bs p → p ≤ T.length := by
  intro bs
  induction bs with
  | nil => intro p h; exact le_of_eq h
  | cons c rest ih =>
    intro p h
    obtain ⟨-, -, hle, h⟩ := h
    exact le_trans (Nat.le_add_right p c.length) (le_trans hle (le_of_eq rfl))

theorem chunksFrom_bounds (T : List Nat) :
    ∀ (bs : List Chunk) (p : Nat), chunksFrom T bs p →
      ∀ c ∈ bs, c.offset + c.length ≤ T.length := by
  intro bs
  induction bs with
  | nil => intro p _ c hc; exact absurd hc (List.not_mem_nil c)
  | cons d rest ih =>
    intro p h c hc
    obtain ⟨hoff, -, hle, h⟩ := h
    rcases List.mem_cons.mp hc with rfl | hc
    · omega
    · exact ih (p + d.length) h c hc

theorem findChunk_mem {orig : List Chunk} {h : List Nat} {c : Chunk}
    (hfc : findChunk orig h = some c) : c ∈ orig :=
  List.mem_of_find?_eq_some hfc

theorem findChunk_hash {orig : List Chunk} {h : List Nat} {c : Chunk}
    (hfc : findChunk orig h = some c) : c.hash = h := by
  have := List.find?_some hfc
  exact eq_of_beq this

theorem slice_length (l : List Nat) (o s : Nat) (h : o + s ≤ l.length) :
    ((l.drop o).take s).length = s := by
  simp only [List.length_take, List.length_drop]
  omega

end FastcdcDiff

namespace FastcdcDiff

theorem applyLoop_nil (src : List Nat) : applyLoop [] src = ([], none) := by
  rw [applyLoop]

theorem applyLoop_copy (rest src : List Nat) (h : 16 ≤ rest.length) :
    applyLoop (0 :: rest) src =
      ((src.drop (beVal (rest.take 8))).take (beVal ((rest.drop 8).take 8)) ++
        (applyLoop (rest.drop 16) src).1, (applyLoop (rest.drop 16) src).2) := by
  rw [applyLoop]
  simp [h]

theorem applyLoop_copy_short (rest src : List Nat) (h : rest.length < 16) :
    applyLoop (0 :: rest) src = ([], some ApplyError.unexpectedEof) := by
  rw [applyLoop]
  simp [Nat.not_le.mpr h]

theorem applyLoop_ins (rest src : List Nat) (h : 8 ≤ rest.length) :
    applyLoop (1 :: rest) src =
      ((rest.drop 8).take (beVal (rest.take 8)) ++
        (applyLoop ((rest.drop 8).drop (beVal (rest.take 8))) src).1,
       (applyLoop ((rest.drop 8).drop (beVal (rest.take 8))) src).2) := by
  rw [applyLoop]
  simp [h]

theorem applyLoop_ins_short (rest src : List Nat) (h : rest.length < 8) :
    applyLoop (1 :: rest) src = ([], some ApplyError.unexpectedEof) := by
  rw [applyLoop]
  simp [Nat.not_le.mpr h]

/-- Parsing a serialized Copy record: the 17 header bytes are consumed
and the source slice is emitted. -/
theorem applyLoop_serialize_copy (o s : Nat) (tail src : List Nat)
    (ho : o < 2 ^ 64) (hs : s < 2 ^ 64) :
    applyLoop (serialize_copy o s ++ tail) src =
      ((src.drop o).take s ++ (applyLoop tail src).1, (applyLoop tail src).2) := by
  have hlen : (beBytes 8 o ++ beBytes 8 s ++ tail).length = 16 + tail.length := by
    simp [beBytes_length]
    omega
  have h16 : 16 ≤ (beBytes 8 o ++ beBytes 8 s ++ tail).length := by omega
  have hassoc : beBytes 8 o ++ beBytes 8 s ++ tail = beBytes 8 o ++ (beBytes 8 s ++ tail) := by
    simp
  have htake8 : (beBytes 8 o ++ beBytes 8 s ++ tail).take 8 = beBytes 8 o := by
    rw [hassoc, List.take_left' (beBytes_length 8 o)]
  have hdrop8 : (beBytes 8 o ++ beBytes 8 s ++ tail).drop 8 = beBytes 8 s ++ tail := by
    rw [hassoc, List.drop_left' (beBytes_length 8 o)]
  have htake8' : (beBytes 8 s ++ tail).take 8 = beBytes 8 s :=
    List.take_left' (beBytes_length 8 s)
  have hdrop16 : (beBytes 8 o ++ beBytes 8 s ++ tail).drop 16 = tail := by
    have : (16 : Nat) = 8 + 8 := rfl
    rw [this, ← List.drop_drop, hdrop8, List.drop_left' (beBytes_length 8 s)]
  have hco : beVal ((beBytes 8 o ++ beBytes 8 s ++ tail).take 8) = o := by
    rw [htake8, beVal_beBytes_of_lt (by rw [pow256_eight]; exact ho)]
  have hcs : beVal (((beBytes 8 o ++ beBytes 8 s ++ tail).drop 8).take 8) = s := by
    rw [hdrop8, htake8', beVal_beBytes_of_lt (by rw [pow256_eight]; exact hs)]
  have : serialize_copy o s ++ tail = 0 :: (beBytes 8 o ++ beBytes 8 s ++ tail) := by
    simp [serialize_copy]
  rw [this, applyLoop_copy _ _ h16, hco, hcs, hdrop16]

/-- Parsing a serialized Insert record whose payload is complete: the
header and the payload are consumed and the payload is emitted. -/
theorem applyLoop_serialize_ins (s : Nat) (payload tail src : List Nat)
    (hs : s < 2 ^ 64) (hp : payload.length = s) :
    applyLoop (1 :: (beBytes 8 s ++ payload) ++ tail) src =
      (payload ++ (applyLoop tail src).1, (applyLoop tail src).2) := by
  have hassoc : (beBytes 8 s ++ payload) ++ tail = beBytes 8 s ++ (payload ++ tail) := by
    simp
  have h8 : 8 ≤ (beBytes 8 s ++ (payload ++ tail)).length := by
    simp [beBytes_length]
  have htake : (beBytes 8 s ++ (payload ++ tail)).take 8 = beBytes 8 s :=
    List.take_left' (beBytes_length 8 s)
  have hdrop : (beBytes 8 s ++ (payload ++ tail)).drop 8 = payload ++ tail :=
    List.drop_left' (beBytes_length 8 s)
  have hval : beVal ((beBytes 8 s ++ (payload ++ tail)).take 8) = s := by
    rw [htake, beVal_beBytes_of_lt (by rw [pow256_eight]; exact hs)]
  have hptake : (payload ++ tail).take s = payload := List.take_left' hp
  have hpdrop : (payload ++ tail).drop s = tail := List.drop_left' hp
  have hcons : (1 : Nat) :: (beBytes 8 s ++ payload) ++ tail =
      1 :: (beBytes 8 s ++ (payload ++ tail)) := by simp
  rw [hcons, applyLoop_ins _ _ h8, hval, hdrop, hptake, hpdrop]

/-- Executing a serialized operation list: when every operation's numbers
fit in a u64 and every Insert range lies inside the target, the record
loop reproduces exactly the rendered bytes and ends without error. -/
theorem applyLoop_ops (S T : List Nat) (ops : List (Operation × Nat × Nat))
    (hops : ∀ o ∈ ops, o.2.1 < 2 ^ 64 ∧ o.2.2 < 2 ^ 64 ∧
      (o.1 = Operation.insert → o.2.1 + o.2.2 ≤ T.length)) :
    applyLoop ((ops.map (opBytesSer T)).flatten) S = (renderOps S T ops, none) := by
  induction ops with
  | nil => simp [renderOps, applyLoop_nil]
  | cons o rest ih =>
    obtain ⟨op, off, sz⟩ := o
    have hhead := hops (op, off, sz) (List.mem_cons_self _ _)
    obtain ⟨hoff, hsz, hins⟩ := hhead
    have ihh := ih (fun o ho => hops o (List.mem_cons_of_mem _ ho))
    cases op with
    | copy =>
      have : ((((Operation.copy, off, sz) :: rest).map (opBytesSer T)).flatten) =
          serialize_copy off sz ++ ((rest.map (opBytesSer T)).flatten) := by
        simp [opBytesSer]
      rw [this, applyLoop_serialize_copy off sz _ S hoff hsz, ihh, renderOps_cons]
      rfl
    | insert =>
      have hple : off + sz ≤ T.length := hins rfl
      have hp : ((T.drop off).take sz).length = sz := slice_length T off sz hple
      have : ((((Operation.insert, off, sz) :: rest).map (opBytesSer T)).flatten) =
          1 :: (beBytes 8 sz ++ (T.drop off).take sz) ++
            ((rest.map (opBytesSer T)).flatten) := by
        simp [opBytesSer, serialize_insert]
      rw [this, applyLoop_serialize_ins sz _ _ S hsz hp, ihh, renderOps_cons]
      rfl

end FastcdcDiff

namespace FastcdcDiff

theorem slice_eq_length {S T : List Nat} {o1 l1 o2 l2 : Nat}
    (h : (S.drop o1).take l1 = (T.drop o2).take l2)
    (h1 : o1 + l1 ≤ S.length) (h2 : o2 + l2 ≤ T.length) : l1 = l2 := by
  have hl := congrArg List.length h
  rwa [slice_length S o1 l1 h1, slice_length T o2 l2 h2] at hl

/-- Main invariant of the planner loop: walking the remaining target
chunks from position `p` with a current run that renders the bytes of
`T` up to `p`, the final operation list renders exactly `T`, and every
emitted operation stays inside its file. -/
theorem diffGo_spec (S T : List Nat) (orig : List Chunk)
    (horig : ∀ c ∈ orig, c.offset + c.length ≤ S.length) :
    ∀ (bs : List Chunk) (p : Nat) (op : Operation) (off len : Nat)
      (acc : List (Operation × Nat × Nat)),
      chunksFrom T bs p →
      (∀ ca ∈ orig, ∀ cb ∈ bs, ca.hash = cb.hash →
        (S.drop ca.offset).take ca.length = (T.drop cb.offset).take cb.length) →
      renderOps S T acc ++ opRender S T (op, off, len) = T.take p →
      (op = Operation.insert → 0 < len) →
      (len = 0 → op = Operation.copy ∧ off = p) →
      (op = Operation.copy → off + len ≤ S.length) →
      (op = Operation.insert → off + len ≤ T.length) →
      (∀ o ∈ acc, opOK S T o) →
      renderOps S T (diffGo orig bs op off len acc) = T ∧
      (∀ o ∈ diffGo orig bs op off len acc, opOK S T o) := by
  intro bs
  induction bs with
  | nil =>
    intro p op off len acc hchunks hagree hrun hinspos hlen0 hcopyb hinsb hacc
    have hp : p = T.length := hchunks
    constructor
    · rw [diffGo, renderOps_append, renderOps_cons, renderOps_nil,
        List.append_nil, hrun, hp, List.take_length]
    · rw [diffGo]
      intro o ho
      rcases List.mem_append.mp ho with ho | ho
      · exact hacc o ho
      · have : o = (op, off, len) := List.mem_singleton.mp ho
        subst this
        exact ⟨hcopyb, hinsb⟩
  | cons nc rest ih =>
    intro p op off len acc hchunks hagree hrun hinspos hlen0 hcopyb hinsb hacc
    obtain ⟨hoff, hpos, hble, hrest⟩ := hchunks
    have hagree' : ∀ ca ∈ orig, ∀ cb ∈ rest, ca.hash = cb.hash →
        (S.drop ca.offset).take ca.length = (T.drop cb.offset).take cb.length :=
      fun ca hca cb hcb hh => hagree ca hca cb (List.mem_cons_of_mem _ hcb) hh
    cases hfc : findChunk orig nc.hash with
    | some c =>
      have hcmem : c ∈ orig := findChunk_mem hfc
      have hchash : c.hash = nc.hash := findChunk_hash hfc
      have hcS : c.offset + c.length ≤ S.length := horig c hcmem
      have hsl : (S.drop c.offset).take c.length = (T.drop p).take nc.length := by
        have h := hagree c hcmem nc (List.mem_cons_self _ _) hchash
        rwa [hoff] at h
      have hclen : c.length = nc.length := slice_eq_length hsl hcS (by omega)
      cases op with
      | copy =>
        simp only [diffGo, hfc]
        split_ifs with h1 h2
        · -- extend the Copy run
          refine ih (p + nc.length) Operation.copy off (len + c.length) acc
            hrest hagree' ?_ (fun h => Operation.noConfusion h)
            (fun h => by exfalso; omega) (fun _ => by omega)
            (fun h => Operation.noConfusion h) hacc
          have hsplit : opRender S T (Operation.copy, off, len + c.length) =
              opRender S T (Operation.copy, off, len) ++ (T.drop p).take nc.length := by
            show (S.drop off).take (len + c.length) = (S.drop off).take len ++ _
            rw [drop_take_split, h1, hsl]
          rw [hsplit, ← List.append_assoc, hrun, take_drop_take]
        · -- flush the Copy run, start a new Copy run
          refine ih (p + nc.length) Operation.copy c.offset c.length
            (acc ++ [(Operation.copy, off, len)])
            hrest hagree' ?_ (fun h => Operation.noConfusion h)
            (fun h => by exfalso; omega) (fun _ => hcS)
            (fun h => Operation.noConfusion h) ?_
          · have hins : opRender S T (Operation.copy, c.offset, c.length) =
                (T.drop p).take nc.length := hsl
            rw [renderOps_append, renderOps_cons, renderOps_nil, List.append_nil,
              hins, List.append_assoc]
            rw [show renderOps S T acc ++
                (opRender S T (Operation.copy, off, len) ++ (T.drop p).take nc.length) =
                (renderOps S T acc ++ opRender S T (Operation.copy, off, len)) ++
                  (T.drop p).take nc.length from by rw [List.append_assoc]]
            rw [hrun, take_drop_take]
          · intro o ho
            rcases List.mem_append.mp ho with ho | ho
            · exact hacc o ho
            · have : o = (Operation.copy, off, len) := List.mem_singleton.mp ho
              subst this
              exact ⟨fun _ => hcopyb rfl, fun h => Operation.noConfusion h⟩
        · -- degenerate empty Copy run: start a new Copy run, nothing to flush
          have hlz : len = 0 := by omega
          refine ih (p + nc.length) Operation.copy c.offset c.length acc
            hrest hagree' ?_ (fun h => Operation.noConfusion h)
            (fun h => by exfalso; omega) (fun _ => hcS)
            (fun h => Operation.noConfusion h) hacc
          have hacc0 : renderOps S T acc = T.take p := by
            have h0 : opRender S T (Operation.copy, off, len) = [] := by
              show (S.drop off).take len = []
              rw [hlz, List.take_zero]
            rw [h0, List.append_nil] at hrun
            exact hrun
          have hins : opRender S T (Operation.copy, c.offset, c.length) =
              (T.drop p).take nc.length := hsl
          rw [hins, hacc0, take_drop_take]
      | insert =>
        simp only [diffGo, hfc]
        split_ifs with h1
        · -- flush the Insert run, start a Copy run
          refine ih (p + nc.length) Operation.copy c.offset c.length
            (acc ++ [(Operation.insert, off, len)])
            hrest hagree' ?_ (fun h => Operation.noConfusion h)
            (fun h => by exfalso; omega) (fun _ => hcS)
            (fun h => Operation.noConfusion h) ?_
          · have hins : opRender S T (Operation.copy, c.offset, c.length) =
                (T.drop p).take nc.length := hsl
            rw [renderOps_append, renderOps_cons, renderOps_nil, List.append_nil,
              hins, List.append_assoc]
            rw [show renderOps S T acc ++
                (opRender S T (Operation.insert, off, len) ++ (T.drop p).take nc.length) =
                (renderOps S T acc ++ opRender S T (Operation.insert, off, len)) ++
                  (T.drop p).take nc.length from by rw [List.append_assoc]]
            rw [hrun, take_drop_take]
          · intro o ho
            rcases List.mem_append.mp ho with ho | ho
            · exact hacc o ho
            · have : o = (Operation.insert, off, len) := List.mem_singleton.mp ho
              subst this
              exact ⟨fun h => Operation.noConfusion h, fun _ => hinsb rfl⟩
        · exact absurd (hinspos rfl) h1
    | none =>
      cases op with
      | insert =>
        simp only [diffGo, hfc]
        split_ifs with h1 h2
        · -- extend the Insert run
          refine ih (p + nc.length) Operation.insert off (len + nc.length) acc
            hrest hagree' ?_ (fun _ => by omega)
            (fun h => by exfalso; omega) (fun h => Operation.noConfusion h)
            (fun _ => by omega) hacc
          have hsplit : opRender S T (Operation.insert, off, len + nc.length) =
              opRender S T (Operation.insert, off, len) ++ (T.drop p).take nc.length := by
            show (T.drop off).take (len + nc.length) = (T.drop off).take len ++ _
            rw [drop_take_split, h1, hoff]
          rw [hsplit, ← List.append_assoc, hrun, take_drop_take]
        · -- flush the Insert run, start a new Insert run
          refine ih (p + nc.length) Operation.insert nc.offset nc.length
            (acc ++ [(Operation.insert, off, len)])
            hrest hagree' ?_ (fun _ => hpos)
            (fun h => by exfalso; omega) (fun h => Operation.noConfusion h)
            (fun _ => by omega) ?_
          · have hins : opRender S T (Operation.insert, nc.offset, nc.length) =
                (T.drop p).take nc.length := by
              show (T.drop nc.offset).take nc.length = _
              rw [hoff]
            rw [renderOps_append, renderOps_cons, renderOps_nil, List.append_nil,
              hins, List.append_assoc]
            rw [show renderOps S T acc ++
                (opRender S T (Operation.insert, off, len) ++ (T.drop p).take nc.length) =
                (renderOps S T acc ++ opRender S T (Operation.insert, off, len)) ++
                  (T.drop p).take nc.length from by rw [List.append_assoc]]
            rw [hrun, take_drop_take]
          · intro o ho
            rcases List.mem_append.mp ho with ho | ho
            · exact hacc o ho
            · have : o = (Operation.insert, off, len) := List.mem_singleton.mp ho
              subst this
              exact ⟨fun h => Operation.noConfusion h, fun _ => hinsb rfl⟩
        · exact absurd (hinspos rfl) h2
      | copy =>
        simp only [diffGo, hfc]
        split_ifs with h1
        · -- flush the Copy run, start an Insert run
          refine ih (p + nc.length) Operation.insert nc.offset nc.length
            (acc ++ [(Operation.copy, off, len)])
            hrest hagree' ?_ (fun _ => hpos)
            (fun h => by exfalso; omega) (fun h => Operation.noConfusion h)
            (fun _ => by omega) ?_
          · have hins : opRender S T (Operation.insert, nc.offset, nc.length) =
                (T.drop p).take nc.length := by
              show (T.drop nc.offset).take nc.length = _
              rw [hoff]
            rw [renderOps_append, renderOps_cons, renderOps_nil, List.append_nil,
              hins, List.append_assoc]
            rw [show renderOps S T acc ++
                (opRender S T (Operation.copy, off, len) ++ (T.drop p).take nc.length) =
                (renderOps S T acc ++ opRender S T (Operation.copy, off, len)) ++
                  (T.drop p).take nc.length from by rw [List.append_assoc]]
            rw [hrun, take_drop_take]
          · intro o ho
            rcases List.mem_append.mp ho with ho | ho
            · exact hacc o ho
            · have : o = (Operation.copy, off, len) := List.mem_singleton.mp ho
              subst this
              exact ⟨fun _ => hcopyb rfl, fun h => Operation.noConfusion h⟩
        · -- degenerate empty Copy run: start an Insert run keeping the old offset
          have hlz : len = 0 := by omega
          obtain ⟨-, hoffp⟩ := hlen0 hlz
          refine ih (p + nc.length) Operation.insert off nc.length acc
            hrest hagree' ?_ (fun _ => hpos)
            (fun h => by exfalso; omega) (fun h => Operation.noConfusion h)
            (fun _ => by omega) hacc
          have hacc0 : renderOps S T acc = T.take p := by
            have h0 : opRender S T (Operation.copy, off, len) = [] := by
              show (S.drop off).take len = []
              rw [hlz, List.take_zero]
            rw [h0, List.append_nil] at hrun
            exact hrun
          have hins : opRender S T (Operation.insert, off, nc.length) =
              (T.drop p).take nc.length := by
            show (T.drop off).take nc.length = _
            rw [hoffp]
          rw [hins, hacc0, take_drop_take]

end FastcdcDiff

namespace FastcdcDiff

/-- Planner correctness: under the signature invariants and
collision-freedom of the hash across the two chunk sets, the planned
operation list renders exactly the target, and each operation stays
inside its file. -/
theorem planner_render (a b : Signature) (S T : List Nat)
    (ha : ∀ c ∈ a.chunks, c.offset + c.length ≤ S.length)
    (hb : chunksFrom T b.chunks 0)
    (hagree : ∀ ca ∈ a.chunks, ∀ cb ∈ b.chunks, ca.hash = cb.hash →
      (S.drop ca.offset).take ca.length = (T.drop cb.offset).take cb.length) :
    renderOps S T (diff_signatures a b) = T ∧
      ∀ o ∈ diff_signatures a b, opOK S T o :=
  diffGo_spec S T a.chunks ha b.chunks 0 Operation.copy 0 0 [] hb hagree
    (by simp [renderOps_nil, opRender]) (fun h => Operation.noConfusion h)
    (fun _ => ⟨rfl, rfl⟩) (fun _ => Nat.zero_le _)
    (fun h => Operation.noConfusion h)
    (fun o ho => absurd ho (List.not_mem_nil o))

/-- End-to-end reconstruction: serializing the planned diff and feeding
it to `apply` reproduces the target byte for byte. -/
theorem apply_write_diff (a b : Signature) (S T : List Nat)
    (hver : a.version = VERSION)
    (hS : S.length < 2 ^ 64) (hT : T.length < 2 ^ 64)
    (ha : ∀ c ∈ a.chunks, c.offset + c.length ≤ S.length)
    (hb : chunksFrom T b.chunks 0)
    (hagree : ∀ ca ∈ a.chunks, ∀ cb ∈ b.chunks, ca.hash = cb.hash →
      (S.drop ca.offset).take ca.length = (T.drop cb.offset).take cb.length) :
    apply (write_diff_between a b T) S = (T, none) := by
  obtain ⟨hrender, hok⟩ := planner_render a b S T ha hb hagree
  have hops : ∀ o ∈ diff_signatures a b, o.2.1 < 2 ^ 64 ∧ o.2.2 < 2 ^ 64 ∧
      (o.1 = Operation.insert → o.2.1 + o.2.2 ≤ T.length) := by
    intro o ho
    obtain ⟨h1, h2⟩ := hok o ho
    obtain ⟨op, x, y⟩ := o
    cases op with
    | copy =>
      have hb1 := h1 rfl
      exact ⟨by simp at hb1 ⊢; omega, by simp at hb1 ⊢; omega,
        fun h => Operation.noConfusion h⟩
    | insert =>
      have hb2 := h2 rfl
      exact ⟨by simp at hb2 ⊢; omega, by simp at hb2 ⊢; omega, fun _ => hb2⟩
  have hstep : apply (write_diff_between a b T) S =
      applyLoop (((diff_signatures a b).map (opBytesSer T)).flatten) S := by
    rw [write_diff_between, apply, hver, if_pos rfl]
  rw [hstep, applyLoop_ops S T _ hops, hrender]

end FastcdcDiff

namespace FastcdcDiff

/-- C1.  For every source file `S` and target file `T` with signatures
`a` over `S` and `b` over `T` (the chunk lists satisfy the data-model
invariants, and equal chunk hashes across the two signatures identify
equal chunk bytes, which is what the code trusts BLAKE3 for), the
operation list produced by `diff_signatures`, serialized by
`write_diff_between` and executed by `apply`, writes exactly the bytes
of `T` to dest and ends without error. -/
theorem reconstruction_correct (a b : Signature) (S T : List Nat)
    (hver : a.version = VERSION)
    (hS : S.length < 2 ^ 64) (hT : T.length < 2 ^ 64)
    (ha : ∀ c ∈ a.chunks, c.offset + c.length ≤ S.length)
    (hb : chunksFrom T b.chunks 0)
    (hagree : ∀ ca ∈ a.chunks, ∀ cb ∈ b.chunks, ca.hash = cb.hash →
      (S.drop ca.offset).take ca.length = (T.drop cb.offset).take cb.length) :
    apply (write_diff_between a b T) S = (T, none) :=
  apply_write_diff a b S T hver hS hT ha hb hagree

def witHashA : List Nat := List.replicate 32 1

def witHashB : List Nat := List.replicate 32 2

def witSigA : Signature :=
  { version := 0, min_size := 4096, avg_size := 16384, max_size := 65535,
    chunks := [⟨witHashA, 0, 3⟩] }

def witSigB : Signature :=
  { version := 0, min_size := 4096, avg_size := 16384, max_size := 65535,
    chunks := [⟨witHashA, 0, 3⟩, ⟨witHashB, 3, 1⟩] }

/-- Witness for C1 at `S = [1,2,3]`, `T = [1,2,3,9]`. -/
theorem reconstruction_correct_witness :
    apply (write_diff_between witSigA witSigB [1, 2, 3, 9]) [1, 2, 3] =
      ([1, 2, 3, 9], none) :=
  reconstruction_correct witSigA witSigB [1, 2, 3] [1, 2, 3, 9] rfl
    (by norm_num) (by norm_num)
    (by
      intro c hc
      simp only [witSigA, List.mem_singleton] at hc
      subst hc
      norm_num)
    (by norm_num [chunksFrom, witSigB])
    (by
      intro ca hca cb hcb hh
      simp only [witSigA, List.mem_singleton] at hca
      simp only [witSigB, List.mem_cons, List.not_mem_nil, or_false] at hcb
      subst hca
      rcases hcb with rfl | rfl
      · rfl
      · exact absurd hh (by decide))

end FastcdcDiff

namespace FastcdcDiff

theorem eq_of_pairwise_hash :
    ∀ {l : List Chunk}, l.Pairwise (fun c d => c.hash ≠ d.hash) →
      ∀ {x y : Chunk}, x ∈ l → y ∈ l → x.hash = y.hash → x = y := by
  intro l
  induction l with
  | nil => intro _ x y hx; exact absurd hx (List.not_mem_nil x)
  | cons d rest ih =>
    intro hp x y hx hy hh
    obtain ⟨hd, hrest⟩ := List.pairwise_cons.mp hp
    rcases List.mem_cons.mp hx with hx1 | hx2
    · rcases List.mem_cons.mp hy with hy1 | hy2
      · rw [hx1, hy1]
      · subst hx1; exact absurd hh (hd y hy2)
    · rcases List.mem_cons.mp hy with hy1 | hy2
      · subst hy1; exact absurd hh.symm (hd x hx2)
      · exact ih hrest hx2 hy2 hh

theorem find_self :
    ∀ (l : List Chunk), l.Pairwise (fun c d => c.hash ≠ d.hash) →
      ∀ c ∈ l, findChunk l c.hash = some c := by
  intro l
  induction l with
  | nil => intro _ c hc; exact absurd hc (List.not_mem_nil c)
  | cons d rest ih =>
    intro hdist c hc
    obtain ⟨hd, hrest⟩ := List.pairwise_cons.mp hdist
    rcases List.mem_cons.mp hc with rfl | hc
    · unfold findChunk
      rw [List.find?_cons_of_pos]
      simp
    · unfold findChunk
      rw [List.find?_cons_of_neg]
      · exact ih hrest c hc
      · simp only [beq_iff_eq]
        exact hd c hc

/-- Diffing a chunk list against an index in which every chunk finds
itself keeps extending the single initial Copy run. -/
theorem diffGo_self (T : List Nat) (orig : List Chunk) :
    ∀ (bs : List Chunk) (p : Nat), chunksFrom T bs p →
      (∀ nc ∈ bs, findChunk orig nc.hash = some nc) →
      diffGo orig bs Operation.copy 0 p [] = [(Operation.copy, 0, T.length)] := by
  intro bs
  induction bs with
  | nil =>
    intro p hch _
    have hp : p = T.length := hch
    simp [diffGo, hp]
  | cons nc rest ih =>
    intro p hch hfind
    obtain ⟨hoff, hpos, hble, hrest⟩ := hch
    have hfc : findChunk orig nc.hash = some nc :=
      hfind nc (List.mem_cons_self _ _)
    simp only [diffGo, hfc]
    split_ifs with h1 h2
    · exact ih (p + nc.length) hrest (fun c hc => hfind c (List.mem_cons_of_mem _ hc))
    · exact absurd (by omega : 0 + p = nc.offset) h1
    · exact absurd (by omega : 0 + p = nc.offset) h1

def dupHash : List Nat := List.replicate 32 7

def dupSig : Signature :=
  { version := 0, min_size := 4096, avg_size := 16384, max_size := 65535,
    chunks := [⟨dupHash, 0, 1⟩, ⟨dupHash, 1, 1⟩] }

/-- C3 counterexample: the two-chunk signature of the two-byte file
`[0,0]` — both chunks carry the byte content `[0]`, so hash determinism
forces equal hashes — satisfies every signature invariant, yet diffing
it against itself yields two Copy operations rather than the single
`Copy{0, |F|}` the claim promises: the hash index resolves the second
chunk to the first occurrence at offset 0, which breaks run
contiguity.  (Realizable: FastCDC cuts identical chunks from periodic
content, e.g. an all-zero file longer than `max_size`.) -/
theorem self_diff_two_copies :
    chunksFrom [0, 0] dupSig.chunks 0 ∧
    (∀ ca ∈ dupSig.chunks, ∀ cb ∈ dupSig.chunks, ca.hash = cb.hash →
      (([0, 0] : List Nat).drop ca.offset).take ca.length =
        (([0, 0] : List Nat).drop cb.offset).take cb.length) ∧
    diff_signatures dupSig dupSig =
      [(Operation.copy, 0, 1), (Operation.copy, 0, 1)] ∧
    diff_signatures dupSig dupSig ≠ [(Operation.copy, 0, (2 : Nat))] := by
  refine ⟨by norm_num [chunksFrom, dupSig], ?_, rfl, by decide⟩
  intro ca hca cb hcb _
  simp only [dupSig, List.mem_cons, List.not_mem_nil, or_false] at hca hcb
  rcases hca with rfl | rfl <;> rcases hcb with rfl | rfl <;> rfl

/-- C3 amended: for a non-empty (indeed any) file `F`, diffing its
signature against itself yields the single operation `Copy{0, |F|}`
provided no two chunks of `F` share a hash (equal content chunks share
a hash and break the claim, see the counterexample); applying the
serialized diff to `F` still returns `F`. -/
theorem self_diff_single_copy (a : Signature) (F : List Nat)
    (hver : a.version = VERSION) (hF : F.length < 2 ^ 64)
    (hchunks : chunksFrom F a.chunks 0)
    (hdist : a.chunks.Pairwise (fun c d => c.hash ≠ d.hash)) :
    diff_signatures a a = [(Operation.copy, 0, F.length)] ∧
      apply (write_diff_between a a F) F = (F, none) := by
  constructor
  · exact diffGo_self F a.chunks a.chunks 0 hchunks (find_self a.chunks hdist)
  · refine apply_write_diff a a F F hver hF hF
      (chunksFrom_bounds F a.chunks 0 hchunks) hchunks ?_
    intro ca hca cb hcb hh
    rw [eq_of_pairwise_hash hdist hca hcb hh]

/-- Witness for the amended C3 at `F = [1,2,3]`. -/
theorem self_diff_single_copy_witness :
    diff_signatures witSigA witSigA = [(Operation.copy, 0, 3)] ∧
      apply (write_diff_between witSigA witSigA [1, 2, 3]) [1, 2, 3] =
        ([1, 2, 3], none) :=
  self_diff_single_copy witSigA [1, 2, 3] rfl (by norm_num)
    (by norm_num [chunksFrom, witSigA]) (by simp [witSigA])

end FastcdcDiff

namespace FastcdcDiff

def colHash : List Nat := List.replicate 32 9

def colSigA : Signature :=
  { version := 0, min_size := 4096, avg_size := 16384, max_size := 65535,
    chunks := [⟨colHash, 0, 5⟩] }

def colSigB : Signature :=
  { version := 0, min_size := 4096, avg_size := 16384, max_size := 65535,
    chunks := [⟨colHash, 0, 3⟩] }

/-- C2 counterexample: the source signature holds one chunk of length 5
and the target one chunk of length 3 with the same (colliding) hash.
No chunk of `A` matches the target chunk by hash AND length, yet the
planner classifies the target chunk as present and emits a Copy — of
the source chunk's length 5, not the target's 3 — because the index is
looked up by hash alone. -/
theorem planner_conflates_lengths :
    diff_signatures colSigA colSigB = [(Operation.copy, 0, 5)] ∧
    ¬∃ ca ∈ colSigA.chunks, ∃ cb ∈ colSigB.chunks,
        ca.hash = cb.hash ∧ ca.length = cb.length := by
  refine ⟨rfl, ?_⟩
  rintro ⟨ca, hca, cb, hcb, -, hlen⟩
  simp only [colSigA, colSigB, List.mem_cons, List.not_mem_nil, or_false] at hca hcb
  subst hca; subst hcb
  exact absurd hlen (by decide)

/-- C2 amended: the planner classifies a target chunk as present in `A`
(taking the Copy branch) if and only if some chunk of `A` has the same
hash — the length is never consulted, so the index does conflate
same-hash chunks of different lengths, and the emitted Copy carries the
`A`-chunk's length. -/
theorem index_matches_by_hash_only (chunks : List Chunk) (cb : Chunk) :
    (findChunk chunks cb.hash).isSome ↔ ∃ ca ∈ chunks, ca.hash = cb.hash := by
  rw [findChunk, List.find?_isSome]
  simp

def emptyTargetSig : Signature :=
  { version := 0, min_size := 4096, avg_size := 16384, max_size := 65535,
    chunks := [] }

/-- C4 counterexample: diffing a one-chunk source signature against a
target signature with an empty chunk list yields the one-element list
`[Copy{0,0}]` — the final run is pushed unconditionally at diff.rs line
134 — not the empty operation list the claim promises. -/
theorem diff_empty_target_not_empty :
    diff_signatures colSigA emptyTargetSig = [(Operation.copy, 0, 0)] ∧
    diff_signatures colSigA emptyTargetSig ≠ ([] : List (Operation × Nat × Nat)) :=
  ⟨rfl, by decide⟩

/-- C4 amended: diffing any source signature against a target signature
whose chunk list is empty yields exactly the single degenerate operation
`Copy{offset 0, size 0}` (which moves no bytes); in particular the list
contains no Insert operation, but it is not empty. -/
theorem diff_empty_target (a b : Signature) (h : b.chunks = []) :
    diff_signatures a b = [(Operation.copy, 0, 0)] := by
  rw [diff_signatures, h, diffGo]
  rfl

/-- Witness for the amended C4. -/
theorem diff_empty_target_witness :
    diff_signatures colSigA emptyTargetSig = [(Operation.copy, 0, 0)] :=
  diff_empty_target colSigA emptyTargetSig rfl

/-- C5.  For every patch stream whose first byte `v` differs from the
implementation's version constant, `apply` fails with a
version-mismatch error carrying the found and the expected version, and
writes no bytes to dest. -/
theorem apply_version_mismatch (v : Nat) (rest src : List Nat) (h : v ≠ VERSION) :
    apply (v :: rest) src = ([], some (ApplyError.versionMismatch v VERSION)) := by
  rw [apply, if_neg h]

/-- Witness for C5: the spec's scenario (e), first byte `0xFF`. -/
theorem apply_version_mismatch_witness :
    apply (255 :: [1, 2]) [3] = ([], some (ApplyError.versionMismatch 255 VERSION)) :=
  apply_version_mismatch 255 [1, 2] [3] (by decide)

end FastcdcDiff

namespace FastcdcDiff

/-- C6 counterexample: a patch that ends in the middle of an Insert
record's payload — the record declares SIZE 5 but only 2 payload bytes
remain before end-of-stream — is not rejected: `apply` writes the two
available bytes and returns success (`Read::take` + `copy` stop at EOF
without error, and the next tag read sees a normal EOF). -/
theorem truncated_insert_accepted :
    apply [0, 1, 0, 0, 0, 0, 0, 0, 0, 5, 7, 8] [] = ([7, 8], none) := by
  have h0 : apply [0, 1, 0, 0, 0, 0, 0, 0, 0, 5, 7, 8] [] =
      applyLoop [1, 0, 0, 0, 0, 0, 0, 0, 5, 7, 8] [] := by
    rw [apply, if_pos (show (0 : Nat) = VERSION from rfl)]
  rw [h0, applyLoop_ins _ _ (by norm_num)]
  rw [show beVal (([0, 0, 0, 0, 0, 0, 0, 5, 7, 8] : List Nat).take 8) = 5 from rfl]
  rw [show (([0, 0, 0, 0, 0, 0, 0, 5, 7, 8] : List Nat).drop 8) = [7, 8] from rfl]
  rw [show (([7, 8] : List Nat).drop 5) = [] from rfl, applyLoop_nil]
  rfl

/-- C6 amended: truncation inside a record's fixed-width fields (the u64
arguments following a tag byte) is a fatal error, and end-of-stream
exactly at a tag boundary terminates normally; but an Insert record
whose declared SIZE exceeds the remaining payload bytes is NOT an
error — `apply` writes the bytes that are available and returns
success. -/
theorem truncation_behavior (src bsc bsi payload : List Nat) (s : Nat)
    (hbc : bsc.length < 16) (hbi : bsi.length < 8)
    (hp : payload.length < s) (hs : s < 2 ^ 64) :
    apply (VERSION :: 0 :: bsc) src = ([], some ApplyError.unexpectedEof) ∧
    apply (VERSION :: 1 :: bsi) src = ([], some ApplyError.unexpectedEof) ∧
    apply [VERSION] src = ([], none) ∧
    apply (VERSION :: 1 :: (beBytes 8 s ++ payload)) src = (payload, none) := by
  refine ⟨?_, ?_, ?_, ?_⟩
  · rw [show (VERSION :: 0 :: bsc) = (0 :: 0 :: bsc) from rfl, apply, if_pos (show (0 : Nat) = VERSION from rfl),
      applyLoop_copy_short _ _ hbc]
  · rw [show (VERSION :: 1 :: bsi) = (0 :: 1 :: bsi) from rfl, apply, if_pos (show (0 : Nat) = VERSION from rfl),
      applyLoop_ins_short _ _ hbi]
  · rw [show ([VERSION] : List Nat) = [0] from rfl, apply, if_pos (show (0 : Nat) = VERSION from rfl), applyLoop_nil]
  · rw [show (VERSION :: 1 :: (beBytes 8 s ++ payload)) =
        (0 :: 1 :: (beBytes 8 s ++ payload)) from rfl, apply, if_pos (show (0 : Nat) = VERSION from rfl)]
    rw [applyLoop_ins _ _ (by simp [beBytes_length])]
    rw [List.take_left' (beBytes_length 8 s),
      beVal_beBytes_of_lt (by rw [pow256_eight]; exact hs),
      List.drop_left' (beBytes_length 8 s),
      List.take_of_length_le (le_of_lt hp),
      List.drop_eq_nil_of_le (le_of_lt hp), applyLoop_nil]
    simp

/-- Witness for the amended C6: the Copy record is cut at 12 bytes after
the tag, inside its second u64 field. -/
theorem truncation_behavior_witness :
    apply (VERSION :: 0 :: [9, 9, 9, 9, 9, 9, 9, 9, 9, 9, 9, 9]) [] =
      ([], some ApplyError.unexpectedEof) ∧
    apply (VERSION :: 1 :: [9, 9, 9]) [] = ([], some ApplyError.unexpectedEof) ∧
    apply [VERSION] [] = ([], none) ∧
    apply (VERSION :: 1 :: (beBytes 8 5 ++ [7, 8])) [] = ([7, 8], none) :=
  truncation_behavior [] [9, 9, 9, 9, 9, 9, 9, 9, 9, 9, 9, 9] [9, 9, 9] [7, 8] 5
    (by norm_num) (by norm_num) (by norm_num) (by norm_num)

/-- C7 counterexample: `Signature::load` performs no version check —
loading a serialized signature whose first byte is the unknown version
255 (not the constant 0) succeeds and returns a signature carrying
version 255, rather than failing with a hard error. -/
theorem load_accepts_unknown_version :
    Signature.load (255 :: List.replicate 20 0) =
      some { version := 255, min_size := 0, avg_size := 0, max_size := 0,
             chunks := [] } := rfl

/-- C7 amended: `Signature::load` rejects nothing on account of the
version byte: for every first byte `v`, known or unknown, it returns a
signature whose version field is `v`; its only failure mode is an input
with too few bytes. -/
theorem load_ignores_version (v : Nat) :
    Signature.load (v :: List.replicate 20 0) =
      some { version := v, min_size := 0, avg_size := 0, max_size := 0,
             chunks := [] } := rfl

end FastcdcDiff

namespace FastcdcDiff

/-- Reading back the serialized chunk records recovers the chunk list,
provided each hash is 32 bytes and offsets and lengths fit in a u64. -/
theorem loadChunks_roundtrip :
    ∀ (chunks : List Chunk),
      (∀ c ∈ chunks, c.hash.length = 32 ∧ c.offset < 2 ^ 64 ∧ c.length < 2 ^ 64) →
      loadChunks chunks.length
        ((chunks.map (fun c => c.hash ++ beBytes 8 c.offset ++ beBytes 8 c.length)).flatten) =
        some chunks := by
  intro chunks
  induction chunks with
  | nil => intro _; rfl
  | cons c rest ih =>
    intro hc
    obtain ⟨hhash, hoff, hlen⟩ := hc c (List.mem_cons_self _ _)
    have ihh := ih (fun d hd => hc d (List.mem_cons_of_mem _ hd))
    have hbytes : (((c :: rest).map
        (fun c => c.hash ++ beBytes 8 c.offset ++ beBytes 8 c.length)).flatten) =
        c.hash ++ (beBytes 8 c.offset ++ (beBytes 8 c.length ++
          ((rest.map (fun c => c.hash ++ beBytes 8 c.offset ++ beBytes 8 c.length)).flatten))) := by
      simp
    have hlen48 : 48 ≤ (c.hash ++ (beBytes 8 c.offset ++ (beBytes 8 c.length ++
        ((rest.map (fun c => c.hash ++ beBytes 8 c.offset ++ beBytes 8 c.length)).flatten)))).length := by
      simp [beBytes_length, hhash]
      omega
    have htake32 : (c.hash ++ (beBytes 8 c.offset ++ (beBytes 8 c.length ++
        ((rest.map (fun c => c.hash ++ beBytes 8 c.offset ++ beBytes 8 c.length)).flatten)))).take 32 =
        c.hash := List.take_left' hhash
    have hdrop32 : (c.hash ++ (beBytes 8 c.offset ++ (beBytes 8 c.length ++
        ((rest.map (fun c => c.hash ++ beBytes 8 c.offset ++ beBytes 8 c.length)).flatten)))).drop 32 =
        beBytes 8 c.offset ++ (beBytes 8 c.length ++
          ((rest.map (fun c => c.hash ++ beBytes 8 c.offset ++ beBytes 8 c.length)).flatten)) :=
      List.drop_left' hhash
    have hdrop40 : (c.hash ++ (beBytes 8 c.offset ++ (beBytes 8 c.length ++
        ((rest.map (fun c => c.hash ++ beBytes 8 c.offset ++ beBytes 8 c.length)).flatten)))).drop 40 =
        beBytes 8 c.length ++
          ((rest.map (fun c => c.hash ++ beBytes 8 c.offset ++ beBytes 8 c.length)).flatten) := by
      rw [show (40 : Nat) = 32 + 8 from rfl, ← List.drop_drop, hdrop32,
        List.drop_left' (beBytes_length 8 c.offset)]
    have hdrop48 : (c.hash ++ (beBytes 8 c.offset ++ (beBytes 8 c.length ++
        ((rest.map (fun c => c.hash ++ beBytes 8 c.offset ++ beBytes 8 c.length)).flatten)))).drop 48 =
        (rest.map (fun c => c.hash ++ beBytes 8 c.offset ++ beBytes 8 c.length)).flatten := by
      rw [show (48 : Nat) = 40 + 8 from rfl, ← List.drop_drop, hdrop40,
        List.drop_left' (beBytes_length 8 c.length)]
    rw [List.length_cons, hbytes, loadChunks, if_pos hlen48, hdrop48, ihh]
    rw [htake32, hdrop32, List.take_left' (beBytes_length 8 c.offset), hdrop40,
      List.take_left' (beBytes_length 8 c.length),
      beVal_beBytes_of_lt (by rw [pow256_eight]; exact hoff),
      beVal_beBytes_of_lt (by rw [pow256_eight]; exact hlen)]

/-- C8.  Serializing a signature with `write` and loading the produced
bytes with `load` yields the same signature — same version, same
min/avg/max sizes, same chunk sequence — provided the fields fit the
binary format: u32 CDC parameters, u64 chunk count, offsets and
lengths, and 32-byte hashes. -/
theorem signature_roundtrip (s : Signature)
    (hmin : s.min_size < 2 ^ 32) (havg : s.avg_size < 2 ^ 32)
    (hmax : s.max_size < 2 ^ 32) (hcount : s.chunks.length < 2 ^ 64)
    (hc : ∀ c ∈ s.chunks, c.hash.length = 32 ∧ c.offset < 2 ^ 64 ∧ c.length < 2 ^ 64) :
    Signature.load (Signature.write s) = some s := by
  have h32 : (256 : Nat) ^ 4 = 2 ^ 32 := by norm_num
  have hwrite : Signature.write s = s.version ::
      (beBytes 4 s.min_size ++ (beBytes 4 s.avg_size ++ (beBytes 4 s.max_size ++
        (beBytes 8 s.chunks.length ++
          ((s.chunks.map (fun c => c.hash ++ beBytes 8 c.offset ++ beBytes 8 c.length)).flatten))))) := by
    rw [Signature.write, List.append_assoc, List.append_assoc, List.append_assoc]
  set E := (s.chunks.map (fun c => c.hash ++ beBytes 8 c.offset ++ beBytes 8 c.length)).flatten with hE
  set rest := beBytes 4 s.min_size ++ (beBytes 4 s.avg_size ++ (beBytes 4 s.max_size ++
    (beBytes 8 s.chunks.length ++ E))) with hrest
  have h20 : 20 ≤ rest.length := by
    rw [hrest]
    simp [beBytes_length]
    omega
  have htake4 : rest.take 4 = beBytes 4 s.min_size :=
    List.take_left' (beBytes_length 4 s.min_size)
  have hdrop4 : rest.drop 4 = beBytes 4 s.avg_size ++ (beBytes 4 s.max_size ++
      (beBytes 8 s.chunks.length ++ E)) :=
    List.drop_left' (beBytes_length 4 s.min_size)
  have hdrop8 : rest.drop 8 = beBytes 4 s.max_size ++ (beBytes 8 s.chunks.length ++ E) := by
    rw [show (8 : Nat) = 4 + 4 from rfl, ← List.drop_drop, hdrop4,
      List.drop_left' (beBytes_length 4 s.avg_size)]
  have hdrop12 : rest.drop 12 = beBytes 8 s.chunks.length ++ E := by
    rw [show (12 : Nat) = 8 + 4 from rfl, ← List.drop_drop, hdrop8,
      List.drop_left' (beBytes_length 4 s.max_size)]
  have hdrop20 : rest.drop 20 = E := by
    rw [show (20 : Nat) = 12 + 8 from rfl, ← List.drop_drop, hdrop12,
      List.drop_left' (beBytes_length 8 s.chunks.length)]
  have hcnt : beVal ((rest.drop 12).take 8) = s.chunks.length := by
    rw [hdrop12, List.take_left' (beBytes_length 8 s.chunks.length),
      beVal_beBytes_of_lt (by rw [pow256_eight]; exact hcount)]
  rw [hwrite, Signature.load, if_pos h20, hcnt, hdrop20, hE,
    loadChunks_roundtrip s.chunks hc]
  rw [htake4, hdrop4, List.take_left' (beBytes_length 4 s.avg_size), hdrop8,
    List.take_left' (beBytes_length 4 s.max_size),
    beVal_beBytes_of_lt (by rw [h32]; exact hmin),
    beVal_beBytes_of_lt (by rw [h32]; exact havg),
    beVal_beBytes_of_lt (by rw [h32]; exact hmax)]

/-- Witness for C8 at a concrete two-chunk signature. -/
theorem signature_roundtrip_witness :
    Signature.load (Signature.write witSigB) = some witSigB :=
  signature_roundtrip witSigB (by norm_num [witSigB]) (by norm_num [witSigB])
    (by norm_num [witSigB]) (by norm_num [witSigB])
    (by
      intro c hc
      simp only [witSigB, List.mem_cons, List.not_mem_nil, or_false] at hc
      rcases hc with rfl | rfl <;> refine ⟨by decide, by norm_num, by norm_num⟩)

end FastcdcDiff

namespace FastcdcDiff

/-- C9 counterexample: `apply_from_http` never inspects the HTTP status.
With one Insert operation and a server answering status 404 with body
`[9, 9]`, the body of the non-206 response is written into the output
and the reconstruction returns success. -/
theorem http_writes_non206_body :
    apply_from_http [(Operation.insert, 0, 2)] (fun _ _ => (404, [9, 9])) [] =
      ([9, 9], none) := rfl

/-- C9 amended: the result of `apply_from_http` depends only on the
response bodies, never on the status codes — two servers that disagree
arbitrarily on status but agree on bodies give identical output — and
the function has no failure path for a non-206 response. -/
theorem http_status_ignored (diff : List (Operation × Nat × Nat))
    (f g : Nat → Nat → Nat × List Nat) (src : List Nat)
    (h : ∀ x y, (f x y).2 = (g x y).2) :
    apply_from_http diff f src = apply_from_http diff g src := by
  unfold apply_from_http
  have : ((insertRanges diff).map (fun r => (f r.1 r.2).2)) =
      ((insertRanges diff).map (fun r => (g r.1 r.2).2)) :=
    List.map_congr_left (fun r _ => h r.1 r.2)
  rw [this]

/-- Witness for the amended C9: a 404 server and a 206 server with the
same body produce the same reconstruction. -/
theorem http_status_ignored_witness :
    apply_from_http [(Operation.insert, 0, 1)] (fun _ _ => (404, [1])) [] =
      apply_from_http [(Operation.insert, 0, 1)] (fun _ _ => (206, [1])) [] :=
  http_status_ignored [(Operation.insert, 0, 1)]
    (fun _ _ => (404, [1])) (fun _ _ => (206, [1])) [] (fun _ _ => rfl)

/-- C10.  A Copy operation whose source range `[offset, offset+size)`
extends past the end of the source stream makes `apply` copy only the
bytes actually available from that offset and return success: the
output is strictly shorter than the operation promises and no error is
reported. -/
theorem copy_past_end_truncates (src : List Nat) (o s : Nat)
    (ho : o < 2 ^ 64) (hs : s < 2 ^ 64) (hshort : src.length < o + s)
    (hpos : 0 < s) :
    apply (VERSION :: serialize_copy o s) src = ((src.drop o).take s, none) ∧
      ((src.drop o).take s).length < s := by
  constructor
  · have h0 : apply (VERSION :: serialize_copy o s) src =
        applyLoop (serialize_copy o s) src := by
      rw [apply, if_pos (rfl : VERSION = VERSION)]
    rw [h0, show serialize_copy o s = serialize_copy o s ++ [] by simp,
      applyLoop_serialize_copy o s [] src ho hs, applyLoop_nil]
    simp
  · simp only [List.length_take, List.length_drop]
    omega

/-- Witness for C10: copying 5 bytes from offset 1 of a 3-byte source
yields the 2 available bytes and success. -/
theorem copy_past_end_truncates_witness :
    apply (VERSION :: serialize_copy 1 5) [1, 2, 3] = ([2, 3], none) ∧
      (([2, 3] : List Nat)).length < 5 :=
  copy_past_end_truncates [1, 2, 3] 1 5 (by norm_num) (by norm_num)
    (by norm_num) (by norm_num)

end FastcdcDiff
